import Mathlib

/-!
Shallow embedding of `src/vector.h` (template classes `RawMemory<T>` and
`Vector<T>`).  A vector state is modelled by the list of its live, constructed
elements (the slots `[0, size)` of the owned `RawMemory<T>` block) together
with the capacity of that block; `Size()` is the length of the list.  Machine
pointers disappear at this level: an iterator returned by `Emplace`, `Insert`
or `Erase` is modelled by the index it addresses (`begin() + pos` becomes the
natural number `pos`).  Element types `T` are value types `α`; the fallible
layer below additionally models throwing copy constructors as
`Option`-valued functions.
-/

namespace MyVec

/-- State of a `Vector<T>` from src/vector.h: `elems` are the live elements in
slots `[0, size)` of the owned `RawMemory` block, `cap` is `data_.Capacity()`. -/
structure Vector (α : Type) where
  elems : List α
  cap : ℕ
deriving DecidableEq, Repr

/-- `size_t Size() const noexcept { return size_; }` — the count of live
elements, i.e. the length of `elems`. -/
def Vector.Size {α : Type} (v : Vector α) : ℕ := v.elems.length

/-- `size_t Capacity() const noexcept { return data_.Capacity(); }` -/
def Vector.Capacity {α : Type} (v : Vector α) : ℕ := v.cap

/-- `operator[](size_t index)` — reads slot `index`; `d` is the junk value an
out-of-range (undefined-behaviour) read would produce. -/
def Vector.get {α : Type} (v : Vector α) (i : ℕ) (d : α) : α := v.elems.getD i d

/-- `Vector() noexcept` — size 0, capacity 0. -/
def Vector.mkEmpty (α : Type) : Vector α := ⟨[], 0⟩

/-- `Vector(size_t size)` — allocates capacity `size` and value-constructs
`size` elements; `d` is the value produced by `T`'s value construction. -/
def Vector.mkSized {α : Type} (d : α) (n : ℕ) : Vector α := ⟨List.replicate n d, n⟩

/-- `Vector(const Vector& other)` — allocates capacity `other.Size()` and
copies the live range. -/
def Vector.copyCtor {α : Type} (other : Vector α) : Vector α := ⟨other.elems, other.Size⟩

/-- The capacity chosen by the growth branches of `PushBack`, `EmplaceBack`
and `Emplace`: `Size() == 0 ? 1 : Size() * 2`. -/
def Vector.newCap {α : Type} (v : Vector α) : ℕ := if v.Size = 0 then 1 else 2 * v.Size

/-- `PushBack(Type&& value)` — if `data_.Capacity() > Size()` the new element
is placement-constructed at slot `Size()`; otherwise a block of `newCap`
slots is allocated, the new element constructed at slot `Size()`, the live
elements relocated to slots `[0, Size())`, the old elements destroyed and the
blocks swapped.  Then `size_++`. -/
def Vector.PushBack {α : Type} (v : Vector α) (x : α) : Vector α :=
  if v.Size < v.cap then ⟨v.elems ++ [x], v.cap⟩
  else ⟨v.elems ++ [x], v.newCap⟩

/-- `EmplaceBack(Args&&... args)` — same state change as `PushBack`; returns
a reference to `data_[size_++]`, modelled by the index of the new element. -/
def Vector.EmplaceBack {α : Type} (v : Vector α) (x : α) : Vector α × ℕ :=
  if v.Size < v.cap then (⟨v.elems ++ [x], v.cap⟩, v.Size)
  else (⟨v.elems ++ [x], v.newCap⟩, v.Size)

/-- `Reserve(size_t capacity)` — no-op when `data_.Capacity() >= capacity`;
otherwise allocates a block of exactly `capacity` slots, relocates the live
elements and swaps. -/
def Vector.Reserve {α : Type} (v : Vector α) (c : ℕ) : Vector α :=
  if c ≤ v.cap then v else ⟨v.elems, c⟩

/-- `Resize(size_t new_size)` — return early when equal; destroy the tail
`[new_size, Size())` when shrinking; `Reserve(new_size)` then value-construct
`[Size(), new_size)` when growing (`d` is `T`'s value-constructed value).
Finally `size_ = new_size`. -/
def Vector.Resize {α : Type} (v : Vector α) (d : α) (n : ℕ) : Vector α :=
  if n = v.Size then v
  else if n < v.Size then ⟨v.elems.take n, v.cap⟩
  else ⟨(v.Reserve n).elems ++ List.replicate (n - v.Size) d, (v.Reserve n).cap⟩

/-- `PopBack()` — destroys the element at slot `Size() - 1` and decrements
`size_` (precondition `Size() > 0`). -/
def Vector.PopBack {α : Type} (v : Vector α) : Vector α := ⟨v.elems.dropLast, v.cap⟩

/-- `std::move_backward(begin() + pos, end() - 1, end())` acting on the value
contents of the occupied slots `[0, old Size()]` (the list `l`, of length
old `Size() + 1` after the last element was placement-constructed at `end()`):
slots `[pos + 1, Size())` receive the values of slots `[pos, Size() - 1)`,
slots `[0, pos]` and slot `Size()` keep their values. -/
def moveBackwardFrom {α : Type} (p : ℕ) (l : List α) : List α :=
  l.take (p + 1) ++ (l.drop p).dropLast

/-- `Emplace(const_iterator position, Args&&... args)` with
`pos = position - begin()`.  Capacity-available branch, `position != end()`:
construct `tmp_obj` from the arguments, placement-construct the current last
element into slot `Size()`, `std::move_backward` the range `[pos, Size() - 1)`
up one slot, move-assign `tmp_obj` into slot `pos`.  Capacity-available
branch, `position == end()`: construct directly at `end()`.  Growth branch:
allocate `newCap` slots, construct the new element at slot `pos`, relocate
slots `[0, pos)` to `[0, pos)` and `[pos, Size())` to `[pos + 1, Size() + 1)`,
destroy the old elements, swap the blocks.  Then `size_++`; returns
`begin() + pos`. `x` is the value the argument pack constructs. -/
def Vector.Emplace {α : Type} (v : Vector α) (p : ℕ) (x : α) : Vector α × ℕ :=
  if v.Size < v.cap then
    if p ≠ v.Size then
      (⟨(moveBackwardFrom p (v.elems ++ [v.elems.getD (v.Size - 1) x])).set p x, v.cap⟩, p)
    else (⟨v.elems ++ [x], v.cap⟩, p)
  else
    (⟨v.elems.take p ++ [x] ++ v.elems.drop p, v.newCap⟩, p)

/-- `Insert(const_iterator position, value)` — both overloads delegate to
`Emplace(position, value)`. -/
def Vector.Insert {α : Type} (v : Vector α) (p : ℕ) (x : α) : Vector α × ℕ :=
  v.Emplace p x

/-- `Erase(const_iterator position)` with `pos = position - begin()`:
`std::move(begin() + pos + 1, end(), begin() + pos)` shifts the values of
slots `[pos + 1, Size())` down one slot (slot `Size() - 1` keeps a leftover
moved-from object), `std::destroy_at(end() - 1)` destroys that leftover,
`size_--`; returns `begin() + pos`. -/
def Vector.Erase {α : Type} (v : Vector α) (p : ℕ) : Vector α × ℕ :=
  (⟨(v.elems.take p ++ v.elems.drop (p + 1) ++ v.elems.drop (v.Size - 1)).dropLast, v.cap⟩, p)

/-- `operator=(const Vector& rhs)` — when `rhs.Size() > data_.Capacity()`,
copy-construct `rhs_copy(rhs)` and `Swap` it in; otherwise reuse the storage:
if `rhs.Size() < Size()`, copy-assign slots `[0, rhs.Size())` from `rhs` and
destroy the surplus tail; else copy-assign slots `[0, Size())` and
copy-construct the remaining `rhs.Size() - Size()` elements after them.
Finally `size_ = rhs.size_`. -/
def Vector.assign {α : Type} (lhs rhs : Vector α) : Vector α :=
  if lhs.cap < rhs.Size then ⟨rhs.elems, rhs.Size⟩
  else if rhs.Size < lhs.Size then
    ⟨(rhs.elems ++ lhs.elems.drop rhs.Size).take rhs.Size, lhs.cap⟩
  else
    ⟨rhs.elems.take lhs.Size ++ rhs.elems.drop lhs.Size, lhs.cap⟩

/-- `Vector(Vector&& other) noexcept` — the pair (constructed vector,
state of `other` afterwards): the target steals `other`'s block and size,
`other` ends at size 0 and capacity 0. -/
def Vector.moveCtor {α : Type} (other : Vector α) : Vector α × Vector α :=
  (⟨other.elems, other.cap⟩, ⟨[], 0⟩)

/-- `operator=(Vector&& rhs) noexcept` — the pair (state of `*this`, state of
`rhs` afterwards): `*this` takes `rhs`'s block and size, `rhs` ends at size 0
and capacity 0 (the `RawMemory` move assignment nulls its buffer). -/
def Vector.moveAssign {α : Type} (_lhs rhs : Vector α) : Vector α × Vector α :=
  (⟨rhs.elems, rhs.cap⟩, ⟨[], 0⟩)

/-- `Swap(Vector& other) noexcept` — the pair (state of `*this`, state of
`other` afterwards): the full states are exchanged. -/
def Vector.Swap {α : Type} (v other : Vector α) : Vector α × Vector α :=
  (other, v)

/-!
Fallible layer.  A throwing copy constructor of `T` is modelled by
`f : α → Option α` (`none` = the copy threw); construction of a new element
from an argument pack is modelled by `mk : Option α`.  Each operation returns
`Except (Vector α) (Vector α)`: `.ok w` is the state after a successful run,
`.error w` the state observed after an exception has propagated out of the
call and stack unwinding has run.
-/

/-- `std::uninitialized_copy_n` over a fallible per-element copy: elements
are copied in order; when a copy throws, the already-copied prefix is
destroyed by `uninitialized_copy_n` itself and the exception propagates, so
no partial new block survives. -/
def copyAll {α : Type} (f : α → Option α) : List α → Option (List α)
  | [] => some []
  | a :: l =>
    match f a with
    | none => none
    | some b =>
      match copyAll f l with
      | none => none
      | some bl => some (b :: bl)

/-- `Reserve(capacity)` with a fallible element copy `f` (the relocation rule
chose copying).  On the early-return path nothing happens.  Otherwise the
code allocates `new_data`, runs `std::uninitialized_copy_n` and only then
destroys the old elements and swaps: a throw inside the copy loop unwinds
through the `std::unique_ptr`, deallocating the new block, before `data_` was
touched, so the error state keeps the old elements and capacity. -/
def Vector.ReserveF {α : Type} (f : α → Option α) (v : Vector α) (c : ℕ) :
    Except (Vector α) (Vector α) :=
  if c ≤ v.cap then .ok v
  else
    match copyAll f v.elems with
    | none => .error ⟨v.elems, v.cap⟩
    | some es => .ok ⟨es, c⟩

/-- `PushBack(value)` with a fallible construction `mk` of the new element
and a fallible element copy `f` for relocation.  In the capacity-available
branch a throw from the placement construction at slot `Size()` happens
before `size_++`, leaving the state unchanged.  In the growth branch the new
element is constructed into the fresh block first, then the live elements are
copied; a throw in either step unwinds before `data_` was touched. -/
def Vector.PushBackF {α : Type} (f : α → Option α) (mk : Option α) (v : Vector α) :
    Except (Vector α) (Vector α) :=
  if v.Size < v.cap then
    match mk with
    | none => .error ⟨v.elems, v.cap⟩
    | some x => .ok ⟨v.elems ++ [x], v.cap⟩
  else
    match mk with
    | none => .error ⟨v.elems, v.cap⟩
    | some x =>
      match copyAll f v.elems with
      | none => .error ⟨v.elems, v.cap⟩
      | some es => .ok ⟨es ++ [x], v.newCap⟩

/-- The growth branch of `Emplace(position, args...)` (the `else` of
`data_.Capacity() > Size()`), with fallible construction `mk` of the new
element and fallible element copy `f` for relocation: construct the new
element at slot `pos` of the fresh block, copy slots `[0, pos)`, copy slots
`[pos, Size())` one slot up; a throw at any of these points unwinds before
the old block was touched. -/
def Vector.EmplaceGrowF {α : Type} (f : α → Option α) (mk : Option α)
    (v : Vector α) (p : ℕ) : Except (Vector α) (Vector α) :=
  match mk with
  | none => .error ⟨v.elems, v.cap⟩
  | some x =>
    match copyAll f (v.elems.take p) with
    | none => .error ⟨v.elems, v.cap⟩
    | some pre1 =>
      match copyAll f (v.elems.drop p) with
      | none => .error ⟨v.elems, v.cap⟩
      | some suf1 => .ok ⟨pre1 ++ [x] ++ suf1, v.newCap⟩

/-- The `rhs.Size() > data_.Capacity()` path of `operator=(const Vector&)`
with a fallible element copy `f`: `Vector rhs_copy(rhs)` copy-constructs a
full temporary before `Swap(rhs_copy)` touches `*this`; a throw while
building the temporary leaves `*this` unchanged. -/
def Vector.assignGrowF {α : Type} (f : α → Option α) (lhs rhs : Vector α) :
    Except (Vector α) (Vector α) :=
  match copyAll f rhs.elems with
  | none => .error ⟨lhs.elems, lhs.cap⟩
  | some es => .ok ⟨es, rhs.Size⟩

/-- The vector states reachable from the constructors by the public
operations of `Vector<T>`, for a fixed value type whose value construction
yields `d`.  Preconditioned operations (`PopBack`, `Emplace`/`Insert`,
`Erase`) carry their documented preconditions. -/
inductive Reachable {α : Type} (d : α) : Vector α → Prop
  | defaultCtor : Reachable d ⟨[], 0⟩
  | sizedCtor (n : ℕ) : Reachable d (Vector.mkSized d n)
  | copyCtorStep {v : Vector α} : Reachable d v → Reachable d (Vector.copyCtor v)
  | moveCtorDst {v : Vector α} : Reachable d v → Reachable d (Vector.moveCtor v).1
  | moveCtorSrc {v : Vector α} : Reachable d v → Reachable d (Vector.moveCtor v).2
  | assignStep {u v : Vector α} : Reachable d u → Reachable d v → Reachable d (u.assign v)
  | moveAssignDst {u v : Vector α} : Reachable d u → Reachable d v →
      Reachable d (u.moveAssign v).1
  | moveAssignSrc {u v : Vector α} : Reachable d u → Reachable d v →
      Reachable d (u.moveAssign v).2
  | reserveStep {v : Vector α} (c : ℕ) : Reachable d v → Reachable d (v.Reserve c)
  | resizeStep {v : Vector α} (n : ℕ) : Reachable d v → Reachable d (v.Resize d n)
  | pushBackStep {v : Vector α} (x : α) : Reachable d v → Reachable d (v.PushBack x)
  | emplaceBackStep {v : Vector α} (x : α) : Reachable d v →
      Reachable d (v.EmplaceBack x).1
  | popBackStep {v : Vector α} : Reachable d v → 0 < v.Size → Reachable d v.PopBack
  | emplaceStep {v : Vector α} (p : ℕ) (x : α) : Reachable d v → p ≤ v.Size →
      Reachable d (v.Emplace p x).1
  | insertStep {v : Vector α} (p : ℕ) (x : α) : Reachable d v → p ≤ v.Size →
      Reachable d (v.Insert p x).1
  | eraseStep {v : Vector α} (p : ℕ) : Reachable d v → p < v.Size →
      Reachable d (v.Erase p).1
  | swapFst {u v : Vector α} : Reachable d u → Reachable d v →
      Reachable d (u.Swap v).1
  | swapSnd {u v : Vector α} : Reachable d u → Reachable d v →
      Reachable d (u.Swap v).2

/-- `k` consecutive `PushBack` calls starting from a default-constructed
vector (the pushed values are `0, 1, …, k - 1`). -/
def iterPush : ℕ → Vector ℕ
  | 0 => ⟨[], 0⟩
  | k + 1 => (iterPush k).PushBack k

/-! Helper lemmas characterising the operations. -/

theorem Size_mk {α : Type} (l : List α) (c : ℕ) : (Vector.mk l c).Size = l.length := rfl

theorem Capacity_mk {α : Type} (l : List α) (c : ℕ) : (Vector.mk l c).Capacity = c := rfl

/-- Value contents produced by `Emplace` at a valid position: the inserted
value sits between the old prefix `[0, pos)` and the old suffix `[pos, Size())`. -/
theorem Emplace_fst_elems {α : Type} (v : Vector α) (p : ℕ) (x : α) (hp : p ≤ v.Size) :
    (v.Emplace p x).1.elems = v.elems.take p ++ [x] ++ v.elems.drop p := by
  have hlenS : v.Size = v.elems.length := rfl
  unfold Vector.Emplace
  by_cases hc : v.Size < v.cap
  · by_cases hpe : p = v.Size
    · subst hpe
      have hc2 : v.elems.length < v.cap := by omega
      simp [hc2, Vector.Size]
    · have hpv : p < v.elems.length := by
        have := lt_of_le_of_ne hp hpe
        omega
      rw [if_pos hc, if_pos hpe]
      dsimp only
      unfold moveBackwardFrom
      have h1 : (v.elems ++ [v.elems.getD (v.Size - 1) x]).take (p + 1) = v.elems.take (p + 1) :=
        List.take_append_of_le_length hpv
      have h2 : ((v.elems ++ [v.elems.getD (v.Size - 1) x]).drop p).dropLast = v.elems.drop p := by
        rw [List.drop_append_of_le_length (le_of_lt hpv), List.dropLast_concat]
      rw [h1, h2]
      rw [List.set_append_left _ _ (by simp only [List.length_take]; omega)]
      have h3 : (v.elems.take (p + 1)).set p x = v.elems.take p ++ [x] := by
        rw [List.take_succ, List.getElem?_eq_getElem hpv]
        simp only [Option.toList_some]
        rw [List.set_append_right _ _ (by simp only [List.length_take]; omega)]
        have h4 : p - (v.elems.take p).length = 0 := by
          simp only [List.length_take]
          omega
        rw [h4, List.set_cons_zero]
      rw [h3]
  · rw [if_neg hc]

/-- Capacity produced by `Emplace`: unchanged when a slot is free, otherwise
the growth capacity. -/
theorem Emplace_fst_cap {α : Type} (v : Vector α) (p : ℕ) (x : α) :
    (v.Emplace p x).1.cap = if v.Size < v.cap then v.cap else v.newCap := by
  unfold Vector.Emplace
  by_cases hc : v.Size < v.cap
  · by_cases hpe : p = v.Size <;> simp [hc, hpe]
  · simp [hc]

/-- The index returned by `Emplace` is the insertion position. -/
theorem Emplace_snd {α : Type} (v : Vector α) (p : ℕ) (x : α) : (v.Emplace p x).2 = p := by
  unfold Vector.Emplace
  by_cases hc : v.Size < v.cap
  · by_cases hpe : p = v.Size <;> simp [hc, hpe]
  · simp [hc]

/-- Size produced by `Emplace` at a valid position: one more element. -/
theorem Emplace_fst_Size {α : Type} (v : Vector α) (p : ℕ) (x : α) (hp : p ≤ v.Size) :
    (v.Emplace p x).1.Size = v.Size + 1 := by
  show (v.Emplace p x).1.elems.length = v.Size + 1
  rw [Emplace_fst_elems v p x hp]
  simp [Vector.Size, List.length_take, List.length_drop]
  omega

/-- Value contents produced by `Erase` at a valid position: the element at
`pos` disappears, prefix and shifted suffix remain. -/
theorem Erase_fst_elems {α : Type} (v : Vector α) (p : ℕ) (hp : p < v.Size) :
    (v.Erase p).1.elems = v.elems.take p ++ v.elems.drop (p + 1) := by
  unfold Vector.Erase
  simp only
  have hidx : v.Size - 1 < v.elems.length := by
    have : v.Size = v.elems.length := rfl
    omega
  have hdrop : v.elems.drop (v.Size - 1) = [v.elems.get ⟨v.Size - 1, hidx⟩] := by
    rw [List.drop_eq_getElem_cons hidx]
    have hone : v.Size - 1 + 1 = v.elems.length := by
      have : v.Size = v.elems.length := rfl
      omega
    rw [hone, List.drop_length]
    simp [List.get_eq_getElem]
  rw [hdrop, List.dropLast_concat]

/-- Size produced by `Erase` at a valid position: one element fewer. -/
theorem Erase_fst_Size {α : Type} (v : Vector α) (p : ℕ) (hp : p < v.Size) :
    (v.Erase p).1.Size = v.Size - 1 := by
  show (v.Erase p).1.elems.length = v.Size - 1
  rw [Erase_fst_elems v p hp]
  have hlenS : v.Size = v.elems.length := rfl
  simp [List.length_take, List.length_drop]
  omega

/-- `Erase` keeps the capacity. -/
theorem Erase_fst_cap {α : Type} (v : Vector α) (p : ℕ) : (v.Erase p).1.cap = v.cap := rfl

/-- The index returned by `Erase` is the erase position. -/
theorem Erase_snd {α : Type} (v : Vector α) (p : ℕ) : (v.Erase p).2 = p := rfl

/-- Value contents produced by copy assignment: on every path the live range
ends up element-wise equal to `rhs`. -/
theorem assign_elems {α : Type} (lhs rhs : Vector α) :
    (lhs.assign rhs).elems = rhs.elems := by
  unfold Vector.assign
  by_cases h1 : lhs.cap < rhs.Size
  · rw [if_pos h1]
  · rw [if_neg h1]
    by_cases h2 : rhs.Size < lhs.Size
    · rw [if_pos h2]
      dsimp only
      exact List.take_left' rfl
    · rw [if_neg h2]
      dsimp only
      rw [List.take_append_drop]

/-- Capacity produced by copy assignment: a fresh block of exactly
`rhs.Size()` on the temporary-and-swap path, the old block otherwise. -/
theorem assign_cap {α : Type} (lhs rhs : Vector α) :
    (lhs.assign rhs).cap = if lhs.cap < rhs.Size then rhs.Size else lhs.cap := by
  unfold Vector.assign
  by_cases h1 : lhs.cap < rhs.Size
  · rw [if_pos h1, if_pos h1]
  · rw [if_neg h1, if_neg h1]
    by_cases h2 : rhs.Size < lhs.Size
    · rw [if_pos h2]
    · rw [if_neg h2]

/-- Value contents produced by `PushBack`: the new element is appended,
whether or not the storage grows. -/
theorem PushBack_elems {α : Type} (v : Vector α) (x : α) :
    (v.PushBack x).elems = v.elems ++ [x] := by
  unfold Vector.PushBack
  by_cases hc : v.Size < v.cap
  · rw [if_pos hc]
  · rw [if_neg hc]

/-- Capacity produced by `PushBack`. -/
theorem PushBack_cap {α : Type} (v : Vector α) (x : α) :
    (v.PushBack x).cap = if v.Size < v.cap then v.cap else v.newCap := by
  unfold Vector.PushBack
  by_cases hc : v.Size < v.cap
  · rw [if_pos hc, if_pos hc]
  · rw [if_neg hc, if_neg hc]

/-- Size produced by `PushBack`: one more element. -/
theorem PushBack_Size {α : Type} (v : Vector α) (x : α) :
    (v.PushBack x).Size = v.Size + 1 := by
  show (v.PushBack x).elems.length = v.Size + 1
  rw [PushBack_elems]
  simp [Vector.Size]

/-- `EmplaceBack` and `PushBack` produce the same state. -/
theorem EmplaceBack_fst {α : Type} (v : Vector α) (x : α) :
    (v.EmplaceBack x).1 = v.PushBack x := by
  unfold Vector.EmplaceBack Vector.PushBack
  by_cases hc : v.Size < v.cap
  · rw [if_pos hc, if_pos hc]
  · rw [if_neg hc, if_neg hc]

/-- `Reserve` keeps the elements. -/
theorem Reserve_elems {α : Type} (v : Vector α) (c : ℕ) :
    (v.Reserve c).elems = v.elems := by
  unfold Vector.Reserve
  by_cases h : c ≤ v.cap
  · rw [if_pos h]
  · rw [if_neg h]

/-- `Reserve` produces capacity `max (old capacity) c`. -/
theorem Reserve_cap {α : Type} (v : Vector α) (c : ℕ) :
    (v.Reserve c).cap = max v.cap c := by
  unfold Vector.Reserve
  by_cases h : c ≤ v.cap
  · rw [if_pos h, Nat.max_eq_left h]
  · rw [if_neg h]
    dsimp only
    omega

/-- Size produced by copy assignment: the source's size. -/
theorem assign_Size {α : Type} (lhs rhs : Vector α) :
    (lhs.assign rhs).Size = rhs.Size := by
  show (lhs.assign rhs).elems.length = rhs.Size
  rw [assign_elems]
  rfl

/-- Capacity produced by `Resize`: `Reserve` runs only on the growth path. -/
theorem Resize_cap {α : Type} (v : Vector α) (d : α) (n : ℕ) :
    (v.Resize d n).cap = if v.Size < n then max v.cap n else v.cap := by
  unfold Vector.Resize
  by_cases h1 : n = v.Size
  · rw [if_pos h1, if_neg (by omega)]
  · rw [if_neg h1]
    by_cases h2 : n < v.Size
    · rw [if_pos h2, if_neg (by omega)]
    · rw [if_neg h2, if_pos (by omega)]
      exact Reserve_cap v n

/-- Value contents produced by `Resize`: truncation when not growing, the old
elements followed by value-constructed ones when growing. -/
theorem Resize_elems {α : Type} (v : Vector α) (d : α) (n : ℕ) :
    (v.Resize d n).elems =
      if n ≤ v.Size then v.elems.take n
      else v.elems ++ List.replicate (n - v.Size) d := by
  unfold Vector.Resize
  by_cases h1 : n = v.Size
  · rw [if_pos h1, if_pos (by omega)]
    subst h1
    exact (List.take_of_length_le (le_refl _)).symm
  · rw [if_neg h1]
    by_cases h2 : n < v.Size
    · rw [if_pos h2, if_pos (by omega)]
    · rw [if_neg h2, if_neg (by omega)]
      rw [Reserve_elems]

/-- Size produced by `Resize`: always the requested size. -/
theorem Resize_Size {α : Type} (v : Vector α) (d : α) (n : ℕ) :
    (v.Resize d n).Size = n := by
  show (v.Resize d n).elems.length = n
  rw [Resize_elems]
  have hlenS : v.Size = v.elems.length := rfl
  by_cases h : n ≤ v.Size
  · rw [if_pos h]
    simp [List.length_take]
    omega
  · rw [if_neg h]
    simp [List.length_append, List.length_replicate]
    omega

/-- The growth capacity is at least the old capacity whenever the growth
branch actually runs (`data_.Capacity() <= Size()`). -/
theorem cap_le_newCap {α : Type} (v : Vector α) (h : ¬ v.Size < v.cap) :
    v.cap ≤ v.newCap := by
  unfold Vector.newCap
  by_cases h0 : v.Size = 0
  · rw [if_pos h0]
    omega
  · rw [if_neg h0]
    omega

/-- The growth capacity always has room for one more element. -/
theorem succ_Size_le_newCap {α : Type} (v : Vector α) : v.Size + 1 ≤ v.newCap := by
  unfold Vector.newCap
  by_cases h0 : v.Size = 0
  · rw [if_pos h0]
    omega
  · rw [if_neg h0]
    omega

/-- Reading the inserted list below the insertion point. -/
theorem getD_insert_shape_lt {α : Type} (l : List α) (p i : ℕ) (x d : α)
    (hp : p ≤ l.length) (hi : i < p) :
    (l.take p ++ [x] ++ l.drop p).getD i d = l.getD i d := by
  have hlt : (l.take p).length = p := by
    simp only [List.length_take]
    omega
  have hlen2 : (l.take p ++ [x]).length = p + 1 := by
    simp only [List.length_append, List.length_cons, List.length_nil, hlt]
  simp only [List.getD_eq_getElem?_getD]
  rw [List.getElem?_append_left (by omega), List.getElem?_append_left (by omega),
    List.getElem?_take_of_lt hi]

/-- Reading the inserted list at the insertion point. -/
theorem getD_insert_shape_eq {α : Type} (l : List α) (p : ℕ) (x d : α)
    (hp : p ≤ l.length) :
    (l.take p ++ [x] ++ l.drop p).getD p d = x := by
  have hlt : (l.take p).length = p := by
    simp only [List.length_take]
    omega
  have hlen2 : (l.take p ++ [x]).length = p + 1 := by
    simp only [List.length_append, List.length_cons, List.length_nil, hlt]
  simp only [List.getD_eq_getElem?_getD]
  rw [List.getElem?_append_left (by omega), List.getElem?_append_right (by omega), hlt]
  simp

/-- Reading the inserted list above the insertion point. -/
theorem getD_insert_shape_gt {α : Type} (l : List α) (p i : ℕ) (x d : α)
    (hp : p ≤ l.length) (hi1 : p ≤ i) (_hi2 : i < l.length) :
    (l.take p ++ [x] ++ l.drop p).getD (i + 1) d = l.getD i d := by
  have hlt : (l.take p).length = p := by
    simp only [List.length_take]
    omega
  have hlen2 : (l.take p ++ [x]).length = p + 1 := by
    simp only [List.length_append, List.length_cons, List.length_nil, hlt]
  simp only [List.getD_eq_getElem?_getD]
  rw [List.getElem?_append_right (by omega), hlen2, List.getElem?_drop]
  have harith : p + (i + 1 - (p + 1)) = i := by omega
  rw [harith]

/-- Reading the erased list below the erase point. -/
theorem getD_erase_shape_lt {α : Type} (l : List α) (p i : ℕ) (d : α)
    (hi : i < p) :
    (l.take p ++ l.drop (p + 1)).getD i d = l.getD i d := by
  have hc : (l.take p).length = min p l.length := by
    simp only [List.length_take]
  simp only [List.getD_eq_getElem?_getD]
  by_cases hip : i < (l.take p).length
  · rw [List.getElem?_append_left hip, List.getElem?_take_of_lt hi]
  · have hli : l.length ≤ i := by omega
    rw [List.getElem?_append_right (by omega), List.getElem?_drop,
      List.getElem?_eq_none (by omega), List.getElem?_eq_none (by omega)]

/-- Reading the erased list at or above the erase point. -/
theorem getD_erase_shape_ge {α : Type} (l : List α) (p i : ℕ) (d : α)
    (hp : p ≤ i) (hi : i + 1 < l.length) :
    (l.take p ++ l.drop (p + 1)).getD i d = l.getD (i + 1) d := by
  have hlt : (l.take p).length = p := by
    simp only [List.length_take]
    omega
  simp only [List.getD_eq_getElem?_getD]
  rw [List.getElem?_append_right (by omega), hlt, List.getElem?_drop]
  have harith : p + 1 + (i - p) = i + 1 := by omega
  rw [harith]

/-- Claim C3: after copy assignment `a = rhs` the final state is element-wise
equal to `rhs` (`a.Size() == rhs.Size()` and `a[i] == rhs[i]` for every
`i < rhs.Size()`); the temporary-and-swap path (`rhs.Size()` above the old
capacity) ends with capacity `rhs.Size()`, the storage-reuse path keeps the
old capacity. -/
theorem c3_copy_assignment_state {α : Type} (lhs rhs : Vector α) (d : α) :
    (lhs.assign rhs).Size = rhs.Size
    ∧ (∀ i, i < rhs.Size → (lhs.assign rhs).get i d = rhs.get i d)
    ∧ (lhs.Capacity < rhs.Size → (lhs.assign rhs).Capacity = rhs.Size)
    ∧ (rhs.Size ≤ lhs.Capacity → (lhs.assign rhs).Capacity = lhs.Capacity) := by
  have he := assign_elems lhs rhs
  have hc := assign_cap lhs rhs
  refine ⟨assign_Size lhs rhs, ?_, ?_, ?_⟩
  · intro i _
    show (lhs.assign rhs).elems.getD i d = rhs.elems.getD i d
    rw [he]
  · intro h
    have h2 : lhs.cap < rhs.Size := h
    show (lhs.assign rhs).cap = rhs.Size
    rw [hc, if_pos h2]
  · intro h
    have h2 : rhs.Size ≤ lhs.cap := h
    show (lhs.assign rhs).cap = lhs.cap
    rw [hc, if_neg (by omega)]

/-- Witness for C3: a reuse-path assignment copies the elements and keeps the
capacity, a growth-path assignment ends at capacity `rhs.Size()`. -/
theorem c3_copy_assignment_state_witness :
    ((Vector.mk ([1, 2, 3] : List ℕ) 3).assign (Vector.mk [7, 8] 2)).get 1 0
        = (Vector.mk ([7, 8] : List ℕ) 2).get 1 0
    ∧ ((Vector.mk ([1, 2, 3] : List ℕ) 3).assign (Vector.mk [7, 8] 2)).Capacity = 3
    ∧ ((Vector.mk ([1] : List ℕ) 1).assign (Vector.mk [7, 8, 9] 3)).Capacity = 3 :=
  ⟨(c3_copy_assignment_state (Vector.mk [1, 2, 3] 3) (Vector.mk [7, 8] 2) 0).2.1 1 (by decide),
   (c3_copy_assignment_state (Vector.mk [1, 2, 3] 3) (Vector.mk [7, 8] 2) 0).2.2.2 (by decide),
   (c3_copy_assignment_state (Vector.mk [1] 1) (Vector.mk [7, 8, 9] 3) 0).2.2.1 (by decide)⟩

/-- Claim C8: across `Reserve`, `Resize`, `PushBack`, `EmplaceBack`,
`PopBack`, `Emplace`, `Insert`, `Erase` and copy assignment, the capacity
never decreases (the excluded operations — move construction, move
assignment, `Swap` — are not listed). -/
theorem c8_capacity_monotone {α : Type} (v rhs : Vector α) (d x : α) (c n p : ℕ) :
    v.Capacity ≤ (v.Reserve c).Capacity
    ∧ v.Capacity ≤ (v.Resize d n).Capacity
    ∧ v.Capacity ≤ (v.PushBack x).Capacity
    ∧ v.Capacity ≤ (v.EmplaceBack x).1.Capacity
    ∧ v.Capacity ≤ v.PopBack.Capacity
    ∧ v.Capacity ≤ (v.Emplace p x).1.Capacity
    ∧ v.Capacity ≤ (v.Insert p x).1.Capacity
    ∧ v.Capacity ≤ (v.Erase p).1.Capacity
    ∧ v.Capacity ≤ (v.assign rhs).Capacity := by
  have hpush : v.Capacity ≤ (v.PushBack x).Capacity := by
    show v.cap ≤ (v.PushBack x).cap
    rw [PushBack_cap]
    by_cases hc2 : v.Size < v.cap
    · rw [if_pos hc2]
    · rw [if_neg hc2]
      exact cap_le_newCap v hc2
  have hemp : v.Capacity ≤ (v.Emplace p x).1.Capacity := by
    show v.cap ≤ (v.Emplace p x).1.cap
    rw [Emplace_fst_cap]
    by_cases hc2 : v.Size < v.cap
    · rw [if_pos hc2]
    · rw [if_neg hc2]
      exact cap_le_newCap v hc2
  refine ⟨?_, ?_, hpush, ?_, le_refl _, hemp, hemp, le_refl _, ?_⟩
  · show v.cap ≤ (v.Reserve c).cap
    rw [Reserve_cap]
    omega
  · show v.cap ≤ (v.Resize d n).cap
    rw [Resize_cap]
    by_cases h2 : v.Size < n
    · rw [if_pos h2]
      omega
    · rw [if_neg h2]
  · rw [EmplaceBack_fst]
    exact hpush
  · show v.cap ≤ (v.assign rhs).cap
    rw [assign_cap]
    by_cases h2 : v.cap < rhs.Size
    · rw [if_pos h2]
      omega
    · rw [if_neg h2]

/-- Claim C9: `Emplace` at `end()` (hence `Insert` at `end()`) produces the
same final state — size, capacity and element values — as `EmplaceBack`
(respectively `PushBack`), in both the capacity-available branch and the
growth branch. -/
theorem c9_emplace_at_end_is_pushBack {α : Type} (v : Vector α) (x : α) :
    (v.Emplace v.Size x).1 = v.PushBack x
    ∧ (v.EmplaceBack x).1 = v.PushBack x
    ∧ (v.Insert v.Size x).1 = (v.EmplaceBack x).1 := by
  have h1 : (v.Emplace v.Size x).1 = v.PushBack x := by
    unfold Vector.Emplace Vector.PushBack
    by_cases hc : v.Size < v.cap
    · rw [if_pos hc, if_pos hc, if_neg (by simp)]
    · rw [if_neg hc, if_neg hc]
      show Vector.mk (v.elems.take v.elems.length ++ [x] ++ v.elems.drop v.elems.length)
          v.newCap = _
      rw [List.take_length, List.drop_length, List.append_nil]
  refine ⟨h1, EmplaceBack_fst v x, ?_⟩
  show (v.Emplace v.Size x).1 = (v.EmplaceBack x).1
  rw [EmplaceBack_fst v x]
  exact h1

/-- Claim C10: copy-assigning a vector to itself leaves its observable state
unchanged (under the container invariant `Size() ≤ Capacity()`, the
storage-reuse path runs and rewrites each element with its own value). -/
theorem c10_self_assignment_noop {α : Type} (v : Vector α) (h : v.Size ≤ v.Capacity) :
    v.assign v = v := by
  unfold Vector.assign
  rw [if_neg (by exact fun hlt => absurd h (by exact Nat.not_le_of_lt hlt)),
    if_neg (Nat.lt_irrefl _)]
  show Vector.mk (v.elems.take v.Size ++ v.elems.drop v.Size) v.cap = v
  rw [List.take_append_drop]

/-- Witness for C10: self-assignment of a concrete vector. -/
theorem c10_self_assignment_noop_witness :
    (Vector.mk ([4, 5] : List ℕ) 3).assign (Vector.mk [4, 5] 3) = Vector.mk [4, 5] 3 :=
  c10_self_assignment_noop (Vector.mk [4, 5] 3) (by decide)

/-- Claim C4: for `p ≤ Size()`, `Insert`/`Emplace` at position `p` grow the
size by exactly one, place the new element at index `p`, shift the elements
formerly at `[p, old size)` up by one slot in order, leave `[0, p)` unchanged,
and return the index `p` of the inserted element. -/
theorem c4_insert_semantics {α : Type} (v : Vector α) (p : ℕ) (x d : α)
    (hp : p ≤ v.Size) :
    (v.Insert p x).1.Size = v.Size + 1
    ∧ (∀ i, i < p → (v.Insert p x).1.get i d = v.get i d)
    ∧ (v.Insert p x).1.get p d = x
    ∧ (∀ i, p ≤ i → i < v.Size → (v.Insert p x).1.get (i + 1) d = v.get i d)
    ∧ (v.Insert p x).2 = p
    ∧ (v.Insert p x).1.elems = v.elems.take p ++ [x] ++ v.elems.drop p := by
  have he : (v.Insert p x).1.elems = v.elems.take p ++ [x] ++ v.elems.drop p :=
    Emplace_fst_elems v p x hp
  have hpl : p ≤ v.elems.length := hp
  refine ⟨Emplace_fst_Size v p x hp, ?_, ?_, ?_, Emplace_snd v p x, he⟩
  · intro i hi
    show (v.Insert p x).1.elems.getD i d = v.elems.getD i d
    rw [he]
    exact getD_insert_shape_lt v.elems p i x d hpl hi
  · show (v.Insert p x).1.elems.getD p d = x
    rw [he]
    exact getD_insert_shape_eq v.elems p x d hpl
  · intro i hi1 hi2
    show (v.Insert p x).1.elems.getD (i + 1) d = v.elems.getD i d
    rw [he]
    exact getD_insert_shape_gt v.elems p i x d hpl hi1 hi2

/-- Witness for C4: the spec scenario — inserting `99` at index 1 of
`[0,1,2,3,4]` yields `[0,99,1,2,3,4]`, with the shifted and unshifted reads
obtained from the theorem. -/
theorem c4_insert_semantics_witness :
    ((Vector.mk ([0, 1, 2, 3, 4] : List ℕ) 8).Insert 1 99).1.elems = [0, 99, 1, 2, 3, 4]
    ∧ ((Vector.mk ([0, 1, 2, 3, 4] : List ℕ) 8).Insert 1 99).1.Size = 6
    ∧ ((Vector.mk ([0, 1, 2, 3, 4] : List ℕ) 8).Insert 1 99).1.get 1 0 = 99
    ∧ ((Vector.mk ([0, 1, 2, 3, 4] : List ℕ) 8).Insert 1 99).1.get 0 0 = 0
    ∧ ((Vector.mk ([0, 1, 2, 3, 4] : List ℕ) 8).Insert 1 99).1.get 3 0 = 2
    ∧ ((Vector.mk ([0, 1, 2, 3, 4] : List ℕ) 8).Insert 1 99).2 = 1 := by
  have h := c4_insert_semantics (Vector.mk [0, 1, 2, 3, 4] 8) 1 99 0 (by decide)
  exact ⟨by rw [h.2.2.2.2.2]; rfl, h.1, h.2.2.1, h.2.1 0 (by decide),
    h.2.2.2.1 2 (by decide) (by decide), h.2.2.2.2.1⟩

/-- Claim C5: for `p < Size()`, `Erase` at position `p` removes the element at
`p`, shifts the following elements down one slot, decrements the size and
returns the index `p` of the element that followed; erasing at `p` directly
after inserting at `p` restores the original contents and size. -/
theorem c5_erase_semantics {α : Type} (v : Vector α) (p : ℕ) (x d : α) :
    (p < v.Size →
      (v.Erase p).1.Size = v.Size - 1
      ∧ (∀ i, i < p → (v.Erase p).1.get i d = v.get i d)
      ∧ (∀ i, p ≤ i → i + 1 < v.Size → (v.Erase p).1.get i d = v.get (i + 1) d)
      ∧ (v.Erase p).2 = p)
    ∧ (p ≤ v.Size →
      ((v.Insert p x).1.Erase p).1.elems = v.elems
      ∧ ((v.Insert p x).1.Erase p).1.Size = v.Size) := by
  constructor
  · intro hp
    have he := Erase_fst_elems v p hp
    refine ⟨Erase_fst_Size v p hp, ?_, ?_, Erase_snd v p⟩
    · intro i hi
      show (v.Erase p).1.elems.getD i d = v.elems.getD i d
      rw [he]
      exact getD_erase_shape_lt v.elems p i d hi
    · intro i hi1 hi2
      show (v.Erase p).1.elems.getD i d = v.elems.getD (i + 1) d
      rw [he]
      exact getD_erase_shape_ge v.elems p i d hi1 hi2
  · intro hp
    have hpl : p ≤ v.elems.length := hp
    have hins : (v.Insert p x).1.elems = v.elems.take p ++ [x] ++ v.elems.drop p :=
      Emplace_fst_elems v p x hp
    have hsz : p < (v.Insert p x).1.Size := by
      show p < (v.Emplace p x).1.Size
      rw [Emplace_fst_Size v p x hp]
      omega
    have htk : (v.Insert p x).1.elems.take p = v.elems.take p := by
      rw [hins, List.take_append_of_le_length (by simp [List.length_take]; omega),
        List.take_append_of_le_length (by simp [List.length_take]; omega),
        List.take_take]
      rw [Nat.min_self]
    have hdr : (v.Insert p x).1.elems.drop (p + 1) = v.elems.drop p := by
      rw [hins, List.drop_left']
      simp only [List.length_append, List.length_take, List.length_cons, List.length_nil]
      omega
    have helems : ((v.Insert p x).1.Erase p).1.elems = v.elems := by
      rw [Erase_fst_elems _ p hsz, htk, hdr, List.take_append_drop]
    refine ⟨helems, ?_⟩
    show (((v.Insert p x).1.Erase p).1.elems).length = v.Size
    rw [helems]
    rfl

/-- Witness for C5: the spec scenario — erasing index 1 of `[0,99,1,2,3,4]`
yields `[0,1,2,3,4]`, and the insert-then-erase round trip at index 1 of
`[0,1,2,3,4]` restores the contents. -/
theorem c5_erase_semantics_witness :
    ((Vector.mk ([0, 99, 1, 2, 3, 4] : List ℕ) 8).Erase 1).1.Size = 5
    ∧ ((Vector.mk ([0, 99, 1, 2, 3, 4] : List ℕ) 8).Erase 1).1.get 1 0 = 1
    ∧ ((Vector.mk ([0, 99, 1, 2, 3, 4] : List ℕ) 8).Erase 1).1.get 0 0 = 0
    ∧ ((Vector.mk ([0, 99, 1, 2, 3, 4] : List ℕ) 8).Erase 1).2 = 1
    ∧ (((Vector.mk ([0, 1, 2, 3, 4] : List ℕ) 8).Insert 1 99).1.Erase 1).1.elems
        = [0, 1, 2, 3, 4] := by
  have h := c5_erase_semantics (Vector.mk ([0, 99, 1, 2, 3, 4] : List ℕ) 8) 1 7 0
  have h2 := c5_erase_semantics (Vector.mk ([0, 1, 2, 3, 4] : List ℕ) 8) 1 99 0
  exact ⟨(h.1 (by decide)).1, (h.1 (by decide)).2.2.1 1 (by decide) (by decide),
    (h.1 (by decide)).2.1 0 (by decide), (h.1 (by decide)).2.2.2,
    (h2.2 (by decide)).1⟩

/-- Claim C6: `Resize(n)` always ends with `Size() == n`; when shrinking it
keeps the capacity and the prefix `[0, n)` and discards the tail; when
growing it reserves via `Reserve(n)`, keeps the old elements, and the new
elements `[old size, n)` equal the value-constructed (default) `T`. -/
theorem c6_resize_semantics {α : Type} (v : Vector α) (d : α) (n : ℕ) :
    (v.Resize d n).Size = n
    ∧ (n < v.Size →
        (v.Resize d n).Capacity = v.Capacity
        ∧ (v.Resize d n).elems = v.elems.take n)
    ∧ (v.Size < n →
        (v.Resize d n).Capacity = (v.Reserve n).Capacity
        ∧ (∀ i, i < v.Size → (v.Resize d n).get i d = v.get i d)
        ∧ (∀ i, v.Size ≤ i → i < n → (v.Resize d n).get i d = d)) := by
  refine ⟨Resize_Size v d n, ?_, ?_⟩
  · intro hn
    constructor
    · show (v.Resize d n).cap = v.cap
      rw [Resize_cap, if_neg (by omega)]
    · rw [Resize_elems, if_pos (by omega)]
  · intro hn
    have hgrow : (v.Resize d n).elems = v.elems ++ List.replicate (n - v.Size) d := by
      rw [Resize_elems, if_neg (by omega)]
    have hlenS : v.Size = v.elems.length := rfl
    refine ⟨?_, ?_, ?_⟩
    · show (v.Resize d n).cap = (v.Reserve n).cap
      rw [Resize_cap, if_pos hn, Reserve_cap]
    · intro i hi
      show (v.Resize d n).elems.getD i d = v.elems.getD i d
      rw [hgrow]
      simp only [List.getD_eq_getElem?_getD]
      rw [List.getElem?_append_left (by omega)]
    · intro i hi1 hi2
      show (v.Resize d n).elems.getD i d = d
      rw [hgrow]
      simp only [List.getD_eq_getElem?_getD]
      rw [List.getElem?_append_right (by omega)]
      rw [List.getElem?_replicate, if_pos (by omega)]
      rfl

/-- Witness for C6: shrinking `[1,2,3]` (capacity 3) to 2 and growing it to 5
behave as stated. -/
theorem c6_resize_semantics_witness :
    ((Vector.mk ([1, 2, 3] : List ℕ) 3).Resize 0 2).Size = 2
    ∧ ((Vector.mk ([1, 2, 3] : List ℕ) 3).Resize 0 2).elems = [1, 2]
    ∧ ((Vector.mk ([1, 2, 3] : List ℕ) 3).Resize 0 2).Capacity = 3
    ∧ ((Vector.mk ([1, 2, 3] : List ℕ) 3).Resize 0 5).Capacity = 5
    ∧ ((Vector.mk ([1, 2, 3] : List ℕ) 3).Resize 0 5).get 2 0 = 3
    ∧ ((Vector.mk ([1, 2, 3] : List ℕ) 3).Resize 0 5).get 4 0 = 0 := by
  have hs := c6_resize_semantics (Vector.mk ([1, 2, 3] : List ℕ) 3) 0 2
  have hg := c6_resize_semantics (Vector.mk ([1, 2, 3] : List ℕ) 3) 0 5
  exact ⟨hs.1, by rw [(hs.2.1 (by decide)).2]; rfl, (hs.2.1 (by decide)).1,
    (hg.2.2 (by decide)).1, (hg.2.2 (by decide)).2.1 2 (by decide),
    (hg.2.2 (by decide)).2.2 4 (by decide) (by decide)⟩

/-- Claim C7: the invariant `Size() ≤ Capacity()` holds in every state
reachable from any constructor by any sequence of the public operations. -/
theorem c7_size_le_capacity {α : Type} (d : α) (v : Vector α)
    (h : Reachable d v) : v.Size ≤ v.Capacity := by
  induction h with
  | defaultCtor => exact Nat.le_refl 0
  | sizedCtor n =>
    show (List.replicate n d).length ≤ n
    rw [List.length_replicate]
  | copyCtorStep _ _ => exact Nat.le.refl
  | moveCtorDst _ ih => exact ih
  | moveCtorSrc _ _ => exact Nat.le_refl 0
  | assignStep _ _ ihu ihv =>
    rename_i u w _ _
    have ihu2 : u.Size ≤ u.cap := ihu
    show (u.assign w).Size ≤ (u.assign w).cap
    rw [assign_Size, assign_cap]
    by_cases hlt : u.cap < w.Size
    · rw [if_pos hlt]
    · rw [if_neg hlt]
      omega
  | moveAssignDst _ _ _ ihv => exact ihv
  | moveAssignSrc _ _ _ _ => exact Nat.le_refl 0
  | reserveStep c _hr ih =>
    rename_i u
    have ih2 : u.elems.length ≤ u.cap := ih
    show (u.Reserve c).elems.length ≤ (u.Reserve c).cap
    rw [Reserve_elems, Reserve_cap]
    omega
  | resizeStep n _hr ih =>
    rename_i u
    have ih2 : u.Size ≤ u.cap := ih
    show (u.Resize d n).Size ≤ (u.Resize d n).cap
    rw [Resize_Size, Resize_cap]
    by_cases hlt : u.Size < n
    · rw [if_pos hlt]
      omega
    · rw [if_neg hlt]
      omega
  | pushBackStep x _hr ih =>
    rename_i u
    have ih2 : u.Size ≤ u.cap := ih
    show (u.PushBack x).Size ≤ (u.PushBack x).cap
    rw [PushBack_Size, PushBack_cap]
    by_cases hlt : u.Size < u.cap
    · rw [if_pos hlt]
      omega
    · rw [if_neg hlt]
      exact succ_Size_le_newCap u
  | emplaceBackStep x _hr ih =>
    rename_i u
    have ih2 : u.Size ≤ u.cap := ih
    show (u.EmplaceBack x).1.Size ≤ (u.EmplaceBack x).1.cap
    rw [EmplaceBack_fst, PushBack_Size, PushBack_cap]
    by_cases hlt : u.Size < u.cap
    · rw [if_pos hlt]
      omega
    · rw [if_neg hlt]
      exact succ_Size_le_newCap u
  | popBackStep _hr _hp ih =>
    rename_i u
    have ih2 : u.elems.length ≤ u.cap := ih
    show u.elems.dropLast.length ≤ u.cap
    rw [List.length_dropLast]
    omega
  | emplaceStep p x _hr hp ih =>
    rename_i u
    have ih2 : u.Size ≤ u.cap := ih
    show (u.Emplace p x).1.Size ≤ (u.Emplace p x).1.cap
    rw [Emplace_fst_Size u p x hp, Emplace_fst_cap]
    by_cases hlt : u.Size < u.cap
    · rw [if_pos hlt]
      omega
    · rw [if_neg hlt]
      exact succ_Size_le_newCap u
  | insertStep p x _hr hp ih =>
    rename_i u
    have ih2 : u.Size ≤ u.cap := ih
    show (u.Emplace p x).1.Size ≤ (u.Emplace p x).1.cap
    rw [Emplace_fst_Size u p x hp, Emplace_fst_cap]
    by_cases hlt : u.Size < u.cap
    · rw [if_pos hlt]
      omega
    · rw [if_neg hlt]
      exact succ_Size_le_newCap u
  | eraseStep p _hr hp ih =>
    rename_i u
    have ih2 : u.Size ≤ u.cap := ih
    show (u.Erase p).1.Size ≤ (u.Erase p).1.cap
    rw [Erase_fst_Size u p hp, Erase_fst_cap]
    omega
  | swapFst _ _ _ ihv => exact ihv
  | swapSnd _ _ ihu _ => exact ihu

/-- Witness for C7: a concrete reachable state (one `PushBack` into a
default-constructed vector) satisfies the invariant. -/
theorem c7_size_le_capacity_witness :
    ((Vector.mk ([] : List ℕ) 0).PushBack 5).Size
      ≤ ((Vector.mk ([] : List ℕ) 0).PushBack 5).Capacity :=
  c7_size_le_capacity 0 _ (Reachable.pushBackStep 5 Reachable.defaultCtor)

/-- The sizes along `iterPush`: each call appends one element. -/
theorem iterPush_Size (k : ℕ) : (iterPush k).Size = k := by
  induction k with
  | zero => rfl
  | succ k ih =>
    show ((iterPush k).PushBack k).Size = k + 1
    rw [PushBack_Size, ih]

/-- The capacity after `k ≥ 1` pushes is a power of two in `[k, 2k)`. -/
theorem iterPush_cap_bounds (k : ℕ) :
    1 ≤ k → ∃ m, (iterPush k).cap = 2 ^ m ∧ k ≤ 2 ^ m ∧ 2 ^ m < 2 * k := by
  induction k with
  | zero =>
    intro hk
    exact absurd hk (by omega)
  | succ k ih =>
    intro _
    by_cases hk0 : k = 0
    · subst hk0
      exact ⟨0, rfl, by omega, by omega⟩
    · have hk1 : 1 ≤ k := by omega
      obtain ⟨m, hcap, hle, hlt⟩ := ih hk1
      by_cases hfree : k < 2 ^ m
      · refine ⟨m, ?_, by omega, by omega⟩
        have hcond : (iterPush k).Size < (iterPush k).cap := by
          rw [iterPush_Size, hcap]
          exact hfree
        show ((iterPush k).PushBack k).cap = 2 ^ m
        rw [PushBack_cap, if_pos hcond, hcap]
      · have hcond : ¬ (iterPush k).Size < (iterPush k).cap := by
          rw [iterPush_Size, hcap]
          omega
        refine ⟨m + 1, ?_, ?_, ?_⟩
        · show ((iterPush k).PushBack k).cap = 2 ^ (m + 1)
          rw [PushBack_cap, if_neg hcond]
          unfold Vector.newCap
          rw [iterPush_Size, if_neg hk0, pow_succ]
          omega
        · rw [pow_succ]
          omega
        · rw [pow_succ]
          omega

/-- A power of two in `[k, 2k)` is the least power of two that is `≥ k`. -/
theorem pow_two_min {m j k : ℕ} (_hle : k ≤ 2 ^ m) (hlt : 2 ^ m < 2 * k)
    (hj : k ≤ 2 ^ j) : 2 ^ m ≤ 2 ^ j := by
  rcases le_or_lt m j with h | h
  · exact Nat.pow_le_pow_right (by omega) h
  · have h1 : 2 ^ (j + 1) ≤ 2 ^ m := Nat.pow_le_pow_right (by omega) (by omega)
    rw [pow_succ] at h1
    omega

/-- Claim C2: when growth is triggered with `Size() == Capacity()` (the only
way it can trigger under the container invariant), the new capacity of
`PushBack`, `EmplaceBack` and `Emplace` equals `max 1 (2 × old capacity)`;
consequently after `k ≥ 1` pushes into an empty vector the capacity is the
smallest power of two that is at least `k`. -/
theorem c2_growth_doubling {α : Type} :
    (∀ (v : Vector α) (x : α) (p : ℕ), v.Size ≤ v.Capacity → v.Capacity ≤ v.Size →
        (v.PushBack x).Capacity = max 1 (2 * v.Capacity)
        ∧ (v.EmplaceBack x).1.Capacity = max 1 (2 * v.Capacity)
        ∧ (v.Emplace p x).1.Capacity = max 1 (2 * v.Capacity))
    ∧ (∀ k : ℕ, 1 ≤ k → ∃ m, (iterPush k).Capacity = 2 ^ m ∧ k ≤ 2 ^ m
        ∧ ∀ j, k ≤ 2 ^ j → 2 ^ m ≤ 2 ^ j) := by
  constructor
  · intro v x p h1 h2
    have h1c : v.Size ≤ v.cap := h1
    have h2c : v.cap ≤ v.Size := h2
    have hnc : v.newCap = max 1 (2 * v.cap) := by
      unfold Vector.newCap
      by_cases h0 : v.Size = 0
      · rw [if_pos h0]
        omega
      · rw [if_neg h0]
        omega
    have hnl : ¬ v.Size < v.cap := by omega
    refine ⟨?_, ?_, ?_⟩
    · show (v.PushBack x).cap = max 1 (2 * v.cap)
      rw [PushBack_cap, if_neg hnl, hnc]
    · show (v.EmplaceBack x).1.cap = max 1 (2 * v.cap)
      rw [EmplaceBack_fst, PushBack_cap, if_neg hnl, hnc]
    · show (v.Emplace p x).1.cap = max 1 (2 * v.cap)
      rw [Emplace_fst_cap, if_neg hnl, hnc]
  · intro k hk
    obtain ⟨m, hcap, hle, hlt⟩ := iterPush_cap_bounds k hk
    exact ⟨m, hcap, hle, fun j hj => pow_two_min hle hlt hj⟩

/-- Witness for C2: a full vector of size 2 doubles to capacity 4; after 5
pushes into an empty vector the capacity is `2 ^ 3 = 8`, the least power of
two that is at least 5. -/
theorem c2_growth_doubling_witness :
    ((Vector.mk ([4, 5] : List ℕ) 2).PushBack 9).Capacity = max 1 (2 * 2)
    ∧ (∃ m, (iterPush 5).Capacity = 2 ^ m ∧ 5 ≤ 2 ^ m
        ∧ ∀ j, 5 ≤ 2 ^ j → 2 ^ m ≤ 2 ^ j) :=
  ⟨((@c2_growth_doubling ℕ).1 (Vector.mk [4, 5] 2) 9 0 (by decide) (by decide)).1,
   (@c2_growth_doubling ℕ).2 5 (by decide)⟩

/-- Unpacking an `Except.error` equation into component equalities. -/
theorem error_components {α : Type} {a w : Vector α}
    (h : (Except.error a : Except (Vector α) (Vector α)) = Except.error w) :
    w.Size = a.Size ∧ w.Capacity = a.Capacity ∧ w.elems = a.elems := by
  injection h with h2
  subst h2
  exact ⟨rfl, rfl, rfl⟩

/-- Claim C1: the strong-guarantee paths are atomic on failure.  Whenever a
failure is thrown while relocating the live elements to a new block (during
`Reserve`, or during growth inside `PushBack`/`EmplaceBack`/`Emplace`, with
the relocation per-element operation `f` — the compile-time rule picks the
copy constructor unless `T`'s move cannot fail or `T` is not
copy-constructible), or while building the temporary inside the
capacity-insufficient path of copy assignment, the observable size, capacity
and element values are exactly those from before the call. -/
theorem c1_strong_guarantee {α : Type} (f : α → Option α) (mk : Option α)
    (v lhs rhs w : Vector α) (c p : ℕ) :
    (v.ReserveF f c = Except.error w →
      w.Size = v.Size ∧ w.Capacity = v.Capacity ∧ w.elems = v.elems)
    ∧ (v.PushBackF f mk = Except.error w →
      w.Size = v.Size ∧ w.Capacity = v.Capacity ∧ w.elems = v.elems)
    ∧ (v.EmplaceGrowF f mk p = Except.error w →
      w.Size = v.Size ∧ w.Capacity = v.Capacity ∧ w.elems = v.elems)
    ∧ (lhs.assignGrowF f rhs = Except.error w →
      w.Size = lhs.Size ∧ w.Capacity = lhs.Capacity ∧ w.elems = lhs.elems) := by
  refine ⟨?_, ?_, ?_, ?_⟩ <;> intro h
  · unfold Vector.ReserveF at h
    split at h
    · exact Except.noConfusion h
    · split at h
      · exact error_components h
      · exact Except.noConfusion h
  · unfold Vector.PushBackF at h
    split at h
    · split at h
      · exact error_components h
      · exact Except.noConfusion h
    · split at h
      · exact error_components h
      · split at h
        · exact error_components h
        · exact Except.noConfusion h
  · unfold Vector.EmplaceGrowF at h
    split at h
    · exact error_components h
    · split at h
      · exact error_components h
      · split at h
        · exact error_components h
        · exact Except.noConfusion h
  · unfold Vector.assignGrowF at h
    split at h
    · exact error_components h
    · exact Except.noConfusion h

/-- Witness for C1: with an always-throwing element copy, a growing
`Reserve`, a growth-branch `PushBack`, a growth-branch `Emplace` and a
capacity-insufficient copy assignment all fail and leave the container
exactly as it was. -/
theorem c1_strong_guarantee_witness :
    (Vector.mk ([1, 2] : List ℕ) 2).Size = 2
    ∧ (Vector.mk ([1, 2] : List ℕ) 2).Capacity = 2
    ∧ (Vector.mk ([1, 2] : List ℕ) 2).elems = [1, 2]
    ∧ (Vector.mk ([3] : List ℕ) 1).elems = [3] :=
  ⟨((c1_strong_guarantee (fun _ => none) (some 7) (Vector.mk [1, 2] 2) (Vector.mk [3] 1)
      (Vector.mk [4, 5] 2) (Vector.mk [1, 2] 2) 3 1).1 rfl).1,
   ((c1_strong_guarantee (fun _ => none) (some 7) (Vector.mk [1, 2] 2) (Vector.mk [3] 1)
      (Vector.mk [4, 5] 2) (Vector.mk [1, 2] 2) 3 1).2.1 rfl).2.1,
   ((c1_strong_guarantee (fun _ => none) (some 7) (Vector.mk [1, 2] 2) (Vector.mk [3] 1)
      (Vector.mk [4, 5] 2) (Vector.mk [1, 2] 2) 3 1).2.2.1 rfl).2.2,
   ((c1_strong_guarantee (fun _ => none) (some 7) (Vector.mk [1, 2] 2) (Vector.mk [3] 1)
      (Vector.mk [4, 5] 2) (Vector.mk [3] 1) 3 1).2.2.2 rfl).2.2⟩

end MyVec
